import Mathlib

/-!
Verification of the text chunker `get_chunks` in `src/chunks.py`.

Strings are modelled as `List Char`.  The embedding mirrors the Python
source line by line:

* `paraSplit`    models `re.split(r'\n\n+', text)`            (line 21);
* `strip`        models `str.strip()` over ASCII whitespace;
* `sentSplit`    models `re.split(r'(?<=[.!?])\s+', s)`       (line 43);
* `sentFold`     models the `for i, sent in enumerate(...)` loop
                 (lines 46-64; the local `processed_len` is written but
                 never read in the source and is therefore not carried);
* `sentenceBody` models lines 43-70 (one execution of the while body
                 up to `current_chunk = ""`);
* `whileLoop`    models `while len(current_chunk) > chunk_size` (42-71)
                 as written; since its body unconditionally ends with
                 `current_chunk = ""`, the loop body runs at most once,
                 and `paraFold` uses that single-step form (the
                 equivalence is proved in `whileLoop_eq`);
* `paraFold`     models the paragraph loop (lines 25-74);
* `preMergeChunks` is the chunk list after line 74;
* `mergeFold`/`mergePhase` model the merge pass (lines 77-86), where the
  float comparison `x + 2 <= chunk_size * 1.2` is rendered exactly in
  rational arithmetic as `(x + 2) * 5 ≤ chunk_size * 6`;
* `get_chunks`   is the full function, finishing with line 88.

Python slice semantics: for `0 ≤ k`, `s[:k]` is `take k`, `s[k:]` is
`drop k`, and `s[-k:]` is the whole string when `k = 0` and the last
`min k (length s)` characters otherwise (`pyLastSlice`).  All slice
offsets reached in the source are non-negative whenever
`chunk_overlap ≤ chunk_size`, which covers every statement below;
parameters are natural numbers for the same reason.
-/

/-- ASCII whitespace, as stripped by Python's `str.strip()` and matched
by `\s` (restricted to ASCII input). -/
def isSpace (c : Char) : Bool :=
  c = ' ' || c = '\t' || c = '\n' || c = '\r' || c = Char.ofNat 11 || c = Char.ofNat 12

/-- Terminal sentence punctuation used by the lookbehind in line 43. -/
def isSentEnd (c : Char) : Bool :=
  c = '.' || c = '!' || c = '?'

/-- Python `str.strip()` on ASCII text. -/
def strip (l : List Char) : List Char :=
  ((l.dropWhile isSpace).reverse.dropWhile isSpace).reverse

/-- `re.split(r'\n\n+', text)`.  The accumulator `acc` holds the current
piece reversed; `skipping` is true while the scanner is consuming the
greedy tail of a separator run (two or more newlines).  Each step
consumes exactly one character. -/
def paraSplitAux : List Char → Bool → List Char → List (List Char)
  | [], _, acc => [acc.reverse]
  | c :: rest, true, _ =>
    if c = '\n' then paraSplitAux rest true []
    else paraSplitAux rest false [c]
  | c :: rest, false, acc =>
    if c = '\n' ∧ rest.head? = some '\n' then
      acc.reverse :: paraSplitAux rest true []
    else
      paraSplitAux rest false (c :: acc)

def paraSplit (text : List Char) : List (List Char) :=
  paraSplitAux text false []

/-- The one-character lookbehind `(?<=[.!?])`: the character just before
the scan position is the head of the reversed accumulator. -/
def prevSentEnd (acc : List Char) : Bool :=
  match acc with
  | p :: _ => isSentEnd p
  | [] => false

/-- `re.split(r'(?<=[.!?])\s+', s)`: split at a greedy whitespace run
immediately preceded by terminal punctuation.  `skipping` is true while
consuming the tail of the matched whitespace run. -/
def sentSplitAux : List Char → Bool → List Char → List (List Char)
  | [], _, acc => [acc.reverse]
  | c :: rest, true, _ =>
    if isSpace c then sentSplitAux rest true []
    else sentSplitAux rest false [c]
  | c :: rest, false, acc =>
    if prevSentEnd acc ∧ isSpace c then
      acc.reverse :: sentSplitAux rest true []
    else
      sentSplitAux rest false (c :: acc)

def sentSplit (l : List Char) : List (List Char) :=
  sentSplitAux l false []

/-- Python `s[-k:]` (for `k = chunk_overlap ≥ 0`). -/
def pyLastSlice (k : Nat) (l : List Char) : List Char :=
  if k = 0 then l else l.drop (l.length - k)

/-- Lines 46-64: the `for` loop over `sentences`.  State: the chunk
list built so far and `sub_chunk`. -/
def sentFold (cs ov : Nat) : List (List Char) → List (List Char) → List Char →
    List (List Char) × List Char
  | [], chunks, sub => (chunks, sub)
  | s :: rest, chunks, sub =>
    let sent := strip s
    if sent = [] then
      sentFold cs ov rest chunks sub
    else if sub.length + sent.length + 1 < cs then
      -- line 52: greedy packing, joined by a single space
      sentFold cs ov rest chunks (sub ++ (if sub = [] then [] else [' ']) ++ sent)
    else if sub ≠ [] then
      -- lines 55-60: emit `sub_chunk`, seed the next one with an overlap tail
      let ovText := if ov ≤ sub.length then pyLastSlice ov sub else sub
      sentFold cs ov rest (chunks ++ [sub])
        (ovText ++ (if ovText = [] then [] else [' ']) ++ sent)
    else
      -- lines 61-64: hard slice of an oversized single sentence
      sentFold cs ov rest (chunks ++ [sent.take cs]) (sent.drop (cs - ov))

/-- Lines 43-71: one execution of the body of the `while` loop,
including the leftover append guarded by the `not in chunks` check
(lines 68-70). -/
def sentenceBody (cs ov : Nat) (current : List Char) (chunks : List (List Char)) :
    List (List Char) :=
  let r := sentFold cs ov (sentSplit current) chunks []
  if r.2 ≠ [] ∧ r.2 ∉ r.1 then r.1 ++ [r.2] else r.1

/-- Line 42: `while len(current_chunk) > chunk_size`, as written.  The
body always ends with `current_chunk = ""` (line 71), so the guard
fails right after one execution of the body. -/
def whileLoop (cs ov : Nat) (current : List Char) (chunks : List (List Char)) :
    List (List Char) × List Char :=
  if cs < current.length then
    whileLoop cs ov [] (sentenceBody cs ov current chunks)
  else
    (chunks, current)
  termination_by current.length
  decreasing_by simp_all; omega

/-- Lines 25-74: the loop over paragraphs.  State: chunk list and
`current_chunk`.  The `while` loop of line 42 appears here in its
single-step form; `whileLoop_eq` below proves this form equal to
`whileLoop`. -/
def paraFold (cs ov : Nat) : List (List Char) → List (List Char) → List Char →
    List (List Char) × List Char
  | [], chunks, current => (chunks, current)
  | p :: rest, chunks, current =>
    let para := strip p
    if para = [] then
      paraFold cs ov rest chunks current
    else if current.length + para.length + 2 < cs then
      -- line 32: append paragraph to the accumulator
      paraFold cs ov rest chunks (current ++ (if current = [] then [] else ['\n', '\n']) ++ para)
    else
      -- lines 35-39: finalize the accumulator, start over with `para`,
      -- then lines 42-71: the while loop (at most one body execution)
      let chunks1 := if current ≠ [] then chunks ++ [current] else chunks
      let r := if cs < para.length then (sentenceBody cs ov para chunks1, ([] : List Char))
               else (chunks1, para)
      paraFold cs ov rest r.1 r.2

/-- The chunk list as it stands after line 74 (the early return for
empty text, lines 17-18, is included here). -/
def preMergeChunks (text : List Char) (cs ov : Nat) : List (List Char) :=
  if text = [] then []
  else
    let r := paraFold cs ov (paraSplit text) [] []
    if r.2 ≠ [] then r.1 ++ [r.2] else r.1

/-- Lines 80-86: walk the rest of the chunk list, merging into `last`
while `len(last) + len(c) + 2 <= chunk_size * 1.2`. -/
def mergeFold (cs : Nat) : List (List Char) → List (List Char) → List Char →
    List (List Char)
  | [], done, last => done ++ [last]
  | c :: rest, done, last =>
    if (last.length + c.length + 2) * 5 ≤ cs * 6 then
      mergeFold cs rest done (last ++ '\n' :: '\n' :: c)
    else
      mergeFold cs rest (done ++ [last]) c

/-- Lines 77-86: the merge pass. -/
def mergePhase (cs : Nat) : List (List Char) → List (List Char)
  | [] => []
  | c :: rest => mergeFold cs rest [] c

/-- `get_chunks` (lines 4-88): split, merge, then line 88's
`[chunk.strip() for chunk in final_chunks if chunk.strip()]`. -/
def get_chunks (text : List Char) (cs ov : Nat) : List (List Char) :=
  ((mergePhase cs (preMergeChunks text cs ov)).map strip).filter
    (fun c => !c.isEmpty)

/-- A list with at least one non-whitespace character. -/
def HasNS (l : List Char) : Prop :=
  ∃ c ∈ l, isSpace c = false

/-- The last `k` characters of `a` (the seed of the overlap window). -/
def overlapTail (k : Nat) (a : List Char) : List Char :=
  a.drop (a.length - k)

/-- `b` starts with the tail of `a` of length `min ov (length a)` —
the per-boundary overlap property claimed by the specification. -/
def Follows (ov : Nat) (a b : List Char) : Prop :=
  b.take (min ov a.length) = overlapTail (min ov a.length) a

/-- Invariant carried between an emitted chunk `a` and the growing
`sub_chunk` seeded from it: the seed is still a stable initial segment. -/
def SeedInv (ov : Nat) (a sub : List Char) : Prop :=
  1 ≤ a.length ∧ min ov a.length ≤ sub.length ∧
    sub.take (min ov a.length) = overlapTail (min ov a.length) a

example : get_chunks (List.replicate 12 'a') 5 3 =
    [List.replicate 5 'a', List.replicate 10 'a'] := by decide

example : get_chunks (List.replicate 8 'a') 5 5 =
    [List.replicate 5 'a', List.replicate 8 'a'] := by decide

example : get_chunks [' '] 750 150 = [] := by decide

example : get_chunks [] 750 150 = [] := by decide

/-! ### Whitespace, `dropWhile` and `strip` lemmas -/

theorem mem_of_mem_dropWhile {p : α → Bool} {l : List α} {c : α}
    (h : c ∈ l.dropWhile p) : c ∈ l :=
  (List.dropWhile_sublist p).subset h

theorem strip_subset {l : List Char} : ∀ c ∈ strip l, c ∈ l := by
  intro c hc
  unfold strip at hc
  rw [List.mem_reverse] at hc
  have h1 := mem_of_mem_dropWhile hc
  rw [List.mem_reverse] at h1
  exact mem_of_mem_dropWhile h1

theorem dropWhile_eq_self_of_all {p : α → Bool} {l : List α}
    (h : ∀ c ∈ l, p c = false) : l.dropWhile p = l := by
  cases l with
  | nil => rfl
  | cons a t =>
    rw [List.dropWhile_cons_of_neg]
    simp [h a (by simp)]

theorem strip_eq_self {l : List Char} (h : ∀ c ∈ l, isSpace c = false) :
    strip l = l := by
  unfold strip
  rw [dropWhile_eq_self_of_all h, dropWhile_eq_self_of_all, List.reverse_reverse]
  intro c hc
  exact h c (List.mem_reverse.mp hc)

theorem strip_eq_nil_of_all {l : List Char} (h : ∀ c ∈ l, isSpace c = true) :
    strip l = [] := by
  unfold strip
  rw [List.dropWhile_eq_nil_iff.mpr h]
  rfl

theorem mem_dropWhile_of_not {p : α → Bool} {l : List α} {c : α}
    (hc : c ∈ l) (hp : p c = false) : c ∈ l.dropWhile p := by
  induction l with
  | nil => cases hc
  | cons a t ih =>
    by_cases ha : p a
    · rw [List.dropWhile_cons_of_pos ha]
      rcases List.mem_cons.mp hc with rfl | h
      · rw [ha] at hp; cases hp
      · exact ih h
    · rw [List.dropWhile_cons_of_neg ha]
      exact hc

theorem hasNS_strip {l : List Char} (h : HasNS l) : HasNS (strip l) := by
  obtain ⟨c, hc, hcs⟩ := h
  refine ⟨c, ?_, hcs⟩
  unfold strip
  rw [List.mem_reverse]
  exact mem_dropWhile_of_not (List.mem_reverse.mpr (mem_dropWhile_of_not hc hcs)) hcs

theorem strip_ne_nil_of_hasNS {l : List Char} (h : HasNS l) : strip l ≠ [] := by
  obtain ⟨c, hc, _⟩ := hasNS_strip h
  intro he
  rw [he] at hc
  cases hc

theorem head_dropWhile_not {p : α → Bool} :
    ∀ {l : List α} {c : α} {t : List α}, l.dropWhile p = c :: t → p c = false := by
  intro l
  induction l with
  | nil => intro c t h; cases h
  | cons a r ih =>
    intro c t h
    by_cases ha : p a
    · rw [List.dropWhile_cons_of_pos ha] at h
      exact ih h
    · rw [List.dropWhile_cons_of_neg ha] at h
      cases h
      simpa using ha

theorem getLast?_cons_of_ne_nil {a : α} {t : List α} (h : t ≠ []) :
    (a :: t).getLast? = t.getLast? := by
  rw [List.getLast?_cons]
  cases ht : t.getLast? with
  | none => exact absurd (List.getLast?_eq_none_iff.mp ht) h
  | some x => rfl

theorem getLast?_dropWhile {p : α → Bool} :
    ∀ {x : List α}, x.dropWhile p ≠ [] → (x.dropWhile p).getLast? = x.getLast? := by
  intro x
  induction x with
  | nil => intro h; simp at h
  | cons a t ih =>
    intro h
    by_cases ha : p a
    · rw [List.dropWhile_cons_of_pos ha] at h ⊢
      have ht : t ≠ [] := by
        intro he; rw [he] at h; simp at h
      rw [ih h, getLast?_cons_of_ne_nil ht]
    · rw [List.dropWhile_cons_of_neg ha]

theorem strip_getLast_not {l : List Char} {c : Char}
    (h : (strip l).getLast? = some c) : isSpace c = false := by
  unfold strip at h
  rw [List.getLast?_reverse] at h
  obtain ⟨ys, hy⟩ := List.head?_eq_some_iff.mp h
  exact head_dropWhile_not hy

theorem strip_head_not {l : List Char} {c : Char} {t : List Char}
    (h : strip l = c :: t) : isSpace c = false := by
  unfold strip at h
  have h1 : ((l.dropWhile isSpace).reverse.dropWhile isSpace).reverse.head? = some c := by
    rw [h]; rfl
  rw [List.head?_reverse] at h1
  have hne : (l.dropWhile isSpace).reverse.dropWhile isSpace ≠ [] := by
    intro he; rw [he] at h1; cases h1
  rw [getLast?_dropWhile hne, List.getLast?_reverse] at h1
  obtain ⟨ys, hy⟩ := List.head?_eq_some_iff.mp h1
  exact head_dropWhile_not hy

theorem hasNS_of_strip_ne {l : List Char} (h : strip l ≠ []) : HasNS (strip l) := by
  cases hs : strip l with
  | nil => exact absurd hs h
  | cons c t => exact ⟨c, by simp, strip_head_not hs⟩

theorem filter_dropWhile_space {l : List Char} :
    (l.dropWhile isSpace).filter (fun c => !isSpace c)
      = l.filter (fun c => !isSpace c) := by
  induction l with
  | nil => rfl
  | cons a t ih =>
    by_cases ha : isSpace a
    · rw [List.dropWhile_cons_of_pos ha, ih, List.filter_cons_of_neg (by simp [ha])]
    · rw [List.dropWhile_cons_of_neg ha]

theorem strip_filter {l : List Char} :
    (strip l).filter (fun c => !isSpace c) = l.filter (fun c => !isSpace c) := by
  unfold strip
  rw [List.filter_reverse, filter_dropWhile_space, List.filter_reverse,
    List.reverse_reverse, filter_dropWhile_space]

theorem strip_length_le {l : List Char} : (strip l).length ≤ l.length := by
  unfold strip
  calc ((l.dropWhile isSpace).reverse.dropWhile isSpace).reverse.length
      = ((l.dropWhile isSpace).reverse.dropWhile isSpace).length := by
        rw [List.length_reverse]
    _ ≤ (l.dropWhile isSpace).reverse.length := (List.dropWhile_sublist _).length_le
    _ = (l.dropWhile isSpace).length := by rw [List.length_reverse]
    _ ≤ l.length := (List.dropWhile_sublist _).length_le

/-! ### `paraSplit` lemmas -/

theorem paraSplitAux_subset :
    ∀ (l : List Char) (b : Bool) (acc : List Char),
      ∀ p ∈ paraSplitAux l b acc, ∀ c ∈ p, c ∈ l ∨ c ∈ acc := by
  intro l
  induction l with
  | nil =>
    intro b acc p hp c hc
    simp only [paraSplitAux, List.mem_singleton] at hp
    subst hp
    exact Or.inr (List.mem_reverse.mp hc)
  | cons a rest ih =>
    intro b acc p hp c hc
    cases b with
    | true =>
      by_cases ha : a = '\n'
      · rw [show paraSplitAux (a :: rest) true acc = paraSplitAux rest true [] by
          simp [paraSplitAux, ha]] at hp
        rcases ih true [] p hp c hc with h | h
        · exact Or.inl (List.mem_cons_of_mem _ h)
        · cases h
      · rw [show paraSplitAux (a :: rest) true acc = paraSplitAux rest false [a] by
          simp [paraSplitAux, ha]] at hp
        rcases ih false [a] p hp c hc with h | h
        · exact Or.inl (List.mem_cons_of_mem _ h)
        · rcases List.mem_singleton.mp h with rfl
          exact Or.inl (List.mem_cons_self _ _)
    | false =>
      by_cases hsep : a = '\n' ∧ rest.head? = some '\n'
      · rw [show paraSplitAux (a :: rest) false acc
            = acc.reverse :: paraSplitAux rest true [] by
          simp [paraSplitAux, hsep]] at hp
        rcases List.mem_cons.mp hp with rfl | hp'
        · exact Or.inr (List.mem_reverse.mp hc)
        · rcases ih true [] p hp' c hc with h | h
          · exact Or.inl (List.mem_cons_of_mem _ h)
          · cases h
      · rw [show paraSplitAux (a :: rest) false acc
            = paraSplitAux rest false (a :: acc) by
          simp [paraSplitAux, hsep]] at hp
        rcases ih false (a :: acc) p hp c hc with h | h
        · exact Or.inl (List.mem_cons_of_mem _ h)
        · rcases List.mem_cons.mp h with rfl | h'
          · exact Or.inl (List.mem_cons_self _ _)
          · exact Or.inr h'

theorem paraSplit_subset {text : List Char} :
    ∀ p ∈ paraSplit text, ∀ c ∈ p, c ∈ text := by
  intro p hp c hc
  rcases paraSplitAux_subset text false [] p hp c hc with h | h
  · exact h
  · cases h

theorem paraSplitAux_all_space :
    ∀ (l : List Char) (b : Bool) (acc : List Char),
      (∀ p ∈ paraSplitAux l b acc, ∀ c ∈ p, isSpace c = true) →
      (∀ c ∈ l, isSpace c = true) ∧ (b = false → ∀ c ∈ acc, isSpace c = true) := by
  intro l
  induction l with
  | nil =>
    intro b acc h
    refine ⟨fun c hc => absurd hc (List.not_mem_nil _), fun _ c hc => ?_⟩
    exact h acc.reverse (by simp [paraSplitAux]) c (List.mem_reverse.mpr hc)
  | cons a rest ih =>
    intro b acc h
    cases b with
    | true =>
      by_cases ha : a = '\n'
      · rw [show paraSplitAux (a :: rest) true acc = paraSplitAux rest true [] by
          simp [paraSplitAux, ha]] at h
        refine ⟨fun c hc => ?_, by simp⟩
        rcases List.mem_cons.mp hc with rfl | hc'
        · subst ha; decide
        · exact (ih true [] h).1 c hc'
      · rw [show paraSplitAux (a :: rest) true acc = paraSplitAux rest false [a] by
          simp [paraSplitAux, ha]] at h
        have := ih false [a] h
        refine ⟨fun c hc => ?_, by simp⟩
        rcases List.mem_cons.mp hc with rfl | hc'
        · exact this.2 rfl c (List.mem_singleton.mpr rfl)
        · exact this.1 c hc'
    | false =>
      by_cases hsep : a = '\n' ∧ rest.head? = some '\n'
      · rw [show paraSplitAux (a :: rest) false acc
            = acc.reverse :: paraSplitAux rest true [] by
          simp [paraSplitAux, hsep]] at h
        have hacc : ∀ c ∈ acc, isSpace c = true := fun c hc =>
          h acc.reverse (List.mem_cons_self _ _) c (List.mem_reverse.mpr hc)
        have hrest := ih true [] (fun p hp => h p (List.mem_cons_of_mem _ hp))
        refine ⟨fun c hc => ?_, fun _ => hacc⟩
        rcases List.mem_cons.mp hc with rfl | hc'
        · rw [hsep.1]; decide
        · exact hrest.1 c hc'
      · rw [show paraSplitAux (a :: rest) false acc
            = paraSplitAux rest false (a :: acc) by
          simp [paraSplitAux, hsep]] at h
        have := ih false (a :: acc) h
        refine ⟨fun c hc => ?_, fun _ c hc => this.2 rfl c (List.mem_cons_of_mem _ hc)⟩
        rcases List.mem_cons.mp hc with rfl | hc'
        · exact this.2 rfl c (List.mem_cons_self _ _)
        · exact this.1 c hc'

theorem exists_hasNS_paraSplit {text : List Char} (h : HasNS text) :
    ∃ p ∈ paraSplit text, HasNS p := by
  by_contra hno
  push_neg at hno
  obtain ⟨c, hc, hcs⟩ := h
  have hall : ∀ p ∈ paraSplit text, ∀ c ∈ p, isSpace c = true := by
    intro p hp c' hc'
    rcases Bool.eq_false_or_eq_true (isSpace c') with ht | hf
    · exact ht
    · exact absurd ⟨c', hc', hf⟩ (hno p hp)
  have := (paraSplitAux_all_space text false [] hall).1 c hc
  rw [this] at hcs
  cases hcs

theorem paraSplitAux_no_newline :
    ∀ (l : List Char) (acc : List Char), (∀ c ∈ l, c ≠ '\n') →
      paraSplitAux l false acc = [acc.reverse ++ l] := by
  intro l
  induction l with
  | nil => intro acc _; simp [paraSplitAux]
  | cons a rest ih =>
    intro acc h
    have ha : a ≠ '\n' := h a (List.mem_cons_self _ _)
    rw [show paraSplitAux (a :: rest) false acc = paraSplitAux rest false (a :: acc) by
      simp [paraSplitAux, ha]]
    rw [ih (a :: acc) (fun c hc => h c (List.mem_cons_of_mem _ hc))]
    simp

theorem paraSplit_no_newline {text : List Char} (h : ∀ c ∈ text, c ≠ '\n') :
    paraSplit text = [text] := by
  unfold paraSplit
  rw [paraSplitAux_no_newline text [] h]
  rfl

/-! ### `sentSplit` lemmas -/

theorem sentSplitAux_all_space :
    ∀ (l : List Char) (b : Bool) (acc : List Char),
      (∀ p ∈ sentSplitAux l b acc, ∀ c ∈ p, isSpace c = true) →
      (∀ c ∈ l, isSpace c = true) ∧ (b = false → ∀ c ∈ acc, isSpace c = true) := by
  intro l
  induction l with
  | nil =>
    intro b acc h
    refine ⟨fun c hc => absurd hc (List.not_mem_nil _), fun _ c hc => ?_⟩
    exact h acc.reverse (by simp [sentSplitAux]) c (List.mem_reverse.mpr hc)
  | cons a rest ih =>
    intro b acc h
    cases b with
    | true =>
      by_cases ha : isSpace a = true
      · rw [show sentSplitAux (a :: rest) true acc = sentSplitAux rest true [] by
          simp [sentSplitAux, ha]] at h
        refine ⟨fun c hc => ?_, by simp⟩
        rcases List.mem_cons.mp hc with rfl | hc'
        · exact ha
        · exact (ih true [] h).1 c hc'
      · rw [show sentSplitAux (a :: rest) true acc = sentSplitAux rest false [a] by
          simp [sentSplitAux, ha]] at h
        have := ih false [a] h
        refine ⟨fun c hc => ?_, by simp⟩
        rcases List.mem_cons.mp hc with rfl | hc'
        · exact this.2 rfl c (List.mem_singleton.mpr rfl)
        · exact this.1 c hc'
    | false =>
      by_cases hsep : prevSentEnd acc = true ∧ isSpace a = true
      · rw [show sentSplitAux (a :: rest) false acc
            = acc.reverse :: sentSplitAux rest true [] by
          simp [sentSplitAux, hsep]] at h
        have hacc : ∀ c ∈ acc, isSpace c = true := fun c hc =>
          h acc.reverse (List.mem_cons_self _ _) c (List.mem_reverse.mpr hc)
        have hrest := ih true [] (fun p hp => h p (List.mem_cons_of_mem _ hp))
        refine ⟨fun c hc => ?_, fun _ => hacc⟩
        rcases List.mem_cons.mp hc with rfl | hc'
        · exact hsep.2
        · exact hrest.1 c hc'
      · rw [show sentSplitAux (a :: rest) false acc
            = sentSplitAux rest false (a :: acc) by
          simp only [sentSplitAux]
          rw [if_neg (by simpa using hsep)]] at h
        have := ih false (a :: acc) h
        refine ⟨fun c hc => ?_, fun _ c hc => this.2 rfl c (List.mem_cons_of_mem _ hc)⟩
        rcases List.mem_cons.mp hc with rfl | hc'
        · exact this.2 rfl c (List.mem_cons_self _ _)
        · exact this.1 c hc'

theorem exists_hasNS_sentSplit {l : List Char} (h : HasNS l) :
    ∃ p ∈ sentSplit l, HasNS p := by
  by_contra hno
  push_neg at hno
  obtain ⟨c, hc, hcs⟩ := h
  have hall : ∀ p ∈ sentSplit l, ∀ c ∈ p, isSpace c = true := by
    intro p hp c' hc'
    rcases Bool.eq_false_or_eq_true (isSpace c') with ht | hf
    · exact ht
    · exact absurd ⟨c', hc', hf⟩ (hno p hp)
  have := (sentSplitAux_all_space l false [] hall).1 c hc
  rw [this] at hcs
  cases hcs

theorem sentSplitAux_no_space :
    ∀ (l : List Char) (acc : List Char), (∀ c ∈ l, isSpace c = false) →
      sentSplitAux l false acc = [acc.reverse ++ l] := by
  intro l
  induction l with
  | nil => intro acc _; simp [sentSplitAux]
  | cons a rest ih =>
    intro acc h
    have ha : isSpace a = false := h a (List.mem_cons_self _ _)
    rw [show sentSplitAux (a :: rest) false acc = sentSplitAux rest false (a :: acc) by
      simp [sentSplitAux, ha]]
    rw [ih (a :: acc) (fun c hc => h c (List.mem_cons_of_mem _ hc))]
    simp

theorem sentSplit_no_space {l : List Char} (h : ∀ c ∈ l, isSpace c = false) :
    sentSplit l = [l] := by
  unfold sentSplit
  rw [sentSplitAux_no_space l [] h]
  rfl

/-! ### `sentFold` branch equations and basic lemmas -/

theorem sentFold_cons_skip {cs ov : Nat} {s : List Char} {rest chunks : List (List Char)}
    {sub : List Char} (h : strip s = []) :
    sentFold cs ov (s :: rest) chunks sub = sentFold cs ov rest chunks sub := by
  simp [sentFold, h]

theorem sentFold_cons_pack {cs ov : Nat} {s : List Char} {rest chunks : List (List Char)}
    {sub : List Char} (h1 : strip s ≠ [])
    (h2 : sub.length + (strip s).length + 1 < cs) :
    sentFold cs ov (s :: rest) chunks sub
      = sentFold cs ov rest chunks
          (sub ++ (if sub = [] then [] else [' ']) ++ strip s) := by
  simp [sentFold, h1, h2]

theorem sentFold_cons_emit {cs ov : Nat} {s : List Char} {rest chunks : List (List Char)}
    {sub : List Char} (h1 : strip s ≠ [])
    (h2 : ¬ sub.length + (strip s).length + 1 < cs) (h3 : sub ≠ []) :
    sentFold cs ov (s :: rest) chunks sub
      = sentFold cs ov rest (chunks ++ [sub])
          ((if ov ≤ sub.length then pyLastSlice ov sub else sub)
            ++ (if (if ov ≤ sub.length then pyLastSlice ov sub else sub) = []
                then [] else [' '])
            ++ strip s) := by
  simp [sentFold, h1, h2, h3]

theorem sentFold_cons_hard {cs ov : Nat} {s : List Char} {rest chunks : List (List Char)}
    {sub : List Char} (h1 : strip s ≠ [])
    (h2 : ¬ sub.length + (strip s).length + 1 < cs) (h3 : sub = []) :
    sentFold cs ov (s :: rest) chunks sub
      = sentFold cs ov rest (chunks ++ [(strip s).take cs]) ((strip s).drop (cs - ov)) := by
  subst h3
  simp only [List.length_nil, Nat.zero_add] at h2
  simp [sentFold, h1, h2]

theorem sentFold_append {cs ov : Nat} :
    ∀ (ss : List (List Char)) (chunks : List (List Char)) (sub : List Char),
      sentFold cs ov ss chunks sub
        = (chunks ++ (sentFold cs ov ss [] sub).1, (sentFold cs ov ss [] sub).2) := by
  intro ss
  induction ss with
  | nil => intro chunks sub; simp [sentFold]
  | cons s rest ih =>
    intro chunks sub
    by_cases h1 : strip s = []
    · rw [sentFold_cons_skip h1, sentFold_cons_skip h1]
      exact ih chunks sub
    · by_cases h2 : sub.length + (strip s).length + 1 < cs
      · rw [sentFold_cons_pack h1 h2, sentFold_cons_pack h1 h2]
        exact ih chunks _
      · by_cases h3 : sub = []
        · rw [sentFold_cons_hard h1 h2 h3, sentFold_cons_hard h1 h2 h3]
          rw [ih (chunks ++ _) _, ih ([] ++ _) _]
          simp
        · rw [sentFold_cons_emit h1 h2 h3, sentFold_cons_emit h1 h2 h3]
          rw [ih (chunks ++ [sub]) _, ih ([] ++ [sub]) _]
          simp

theorem sentFold_fst_ne_nil {cs ov : Nat} {ss chunks : List (List Char)} {sub : List Char}
    (h : chunks ≠ []) : (sentFold cs ov ss chunks sub).1 ≠ [] := by
  rw [sentFold_append]
  intro he
  exact h (List.append_eq_nil.mp he).1

theorem sentFold_Q (cs ov : Nat) :
    ∀ (ss : List (List Char)) (chunks : List (List Char)) (sub : List Char),
      ((∃ s ∈ ss, strip s ≠ []) ∨ chunks ≠ [] ∨ sub ≠ []) →
      (sentFold cs ov ss chunks sub).1 ≠ [] ∨ (sentFold cs ov ss chunks sub).2 ≠ [] := by
  intro ss
  induction ss with
  | nil =>
    intro chunks sub h
    rcases h with ⟨s, hs, _⟩ | h | h
    · cases hs
    · exact Or.inl h
    · exact Or.inr h
  | cons s rest ih =>
    intro chunks sub h
    by_cases h1 : strip s = []
    · rw [sentFold_cons_skip h1]
      apply ih
      rcases h with ⟨s', hs', hne⟩ | h | h
      · rcases List.mem_cons.mp hs' with rfl | hm
        · exact absurd h1 hne
        · exact Or.inl ⟨s', hm, hne⟩
      · exact Or.inr (Or.inl h)
      · exact Or.inr (Or.inr h)
    · by_cases h2 : sub.length + (strip s).length + 1 < cs
      · rw [sentFold_cons_pack h1 h2]
        apply ih
        refine Or.inr (Or.inr ?_)
        intro he
        exact h1 (List.append_eq_nil.mp he).2
      · by_cases h3 : sub = []
        · rw [sentFold_cons_hard h1 h2 h3]
          exact Or.inl (sentFold_fst_ne_nil (by simp))
        · rw [sentFold_cons_emit h1 h2 h3]
          exact Or.inl (sentFold_fst_ne_nil (by simp))

/-! ### `getLast?` helpers and the non-whitespace invariant -/

theorem getLast?_append_right {l t : List α} (h : t ≠ []) :
    (l ++ t).getLast? = t.getLast? := by
  cases ht : t.getLast? with
  | none => exact absurd (List.getLast?_eq_none_iff.mp ht) h
  | some x => rw [List.getLast?_append, ht]; rfl

theorem getLast?_strip_of_ne {s : List Char} (h : strip s ≠ []) :
    ∃ c, (strip s).getLast? = some c ∧ isSpace c = false := by
  cases hl : (strip s).getLast? with
  | none => exact absurd (List.getLast?_eq_none_iff.mp hl) h
  | some c => exact ⟨c, rfl, strip_getLast_not hl⟩

theorem hasNS_of_getLast {l : List Char} {c : Char}
    (h : l.getLast? = some c) (hc : isSpace c = false) : HasNS l :=
  ⟨c, List.mem_of_getLast?_eq_some h, hc⟩

theorem hasNS_take_strip {s : List Char} {cs : Nat} (h : strip s ≠ [])
    (hcs : 1 ≤ cs) : HasNS ((strip s).take cs) := by
  cases hs : strip s with
  | nil => exact absurd hs h
  | cons c t =>
    obtain ⟨m, rfl⟩ : ∃ m, cs = m + 1 := ⟨cs - 1, by omega⟩
    rw [List.take_succ_cons]
    exact ⟨c, List.mem_cons_self _ _, strip_head_not hs⟩

theorem getLast?_drop_right {l : List Char} {k : Nat} (h : l.drop k ≠ []) :
    (l.drop k).getLast? = l.getLast? := by
  conv_rhs => rw [← List.take_append_drop k l]
  rw [getLast?_append_right h]

theorem sentFold_inv (cs ov : Nat) (hcs : 1 ≤ cs) :
    ∀ (ss : List (List Char)) (chunks : List (List Char)) (sub : List Char),
      (∀ ch ∈ chunks, HasNS ch) →
      (sub = [] ∨ ∃ c, sub.getLast? = some c ∧ isSpace c = false) →
      (∀ ch ∈ (sentFold cs ov ss chunks sub).1, HasNS ch) ∧
        ((sentFold cs ov ss chunks sub).2 = []
          ∨ ∃ c, (sentFold cs ov ss chunks sub).2.getLast? = some c ∧ isSpace c = false) := by
  intro ss
  induction ss with
  | nil => intro chunks sub hch hsub; exact ⟨hch, hsub⟩
  | cons s rest ih =>
    intro chunks sub hch hsub
    by_cases h1 : strip s = []
    · rw [sentFold_cons_skip h1]
      exact ih chunks sub hch hsub
    · by_cases h2 : sub.length + (strip s).length + 1 < cs
      · rw [sentFold_cons_pack h1 h2]
        apply ih chunks _ hch
        right
        obtain ⟨c, hc, hcs'⟩ := getLast?_strip_of_ne h1
        exact ⟨c, by rw [getLast?_append_right h1]; exact hc, hcs'⟩
      · by_cases h3 : sub = []
        · rw [sentFold_cons_hard h1 h2 h3]
          apply ih
          · intro ch hm
            rcases List.mem_append.mp hm with hm | hm
            · exact hch ch hm
            · rcases List.mem_singleton.mp hm with rfl
              exact hasNS_take_strip h1 hcs
          · by_cases hd : (strip s).drop (cs - ov) = []
            · exact Or.inl hd
            · right
              obtain ⟨c, hc, hcs'⟩ := getLast?_strip_of_ne h1
              exact ⟨c, by rw [getLast?_drop_right hd]; exact hc, hcs'⟩
        · rw [sentFold_cons_emit h1 h2 h3]
          apply ih
          · intro ch hm
            rcases List.mem_append.mp hm with hm | hm
            · exact hch ch hm
            · rcases List.mem_singleton.mp hm with rfl
              rcases hsub with rfl | ⟨c, hc, hcs'⟩
              · exact absurd rfl h3
              · exact hasNS_of_getLast hc hcs'
          · right
            obtain ⟨c, hc, hcs'⟩ := getLast?_strip_of_ne h1
            exact ⟨c, by rw [getLast?_append_right h1]; exact hc, hcs'⟩

/-! ### `sentenceBody` lemmas -/

theorem sentenceBody_eq {cs ov : Nat} {current : List Char} {chunks : List (List Char)} :
    sentenceBody cs ov current chunks
      = if (sentFold cs ov (sentSplit current) chunks []).2 ≠ []
            ∧ (sentFold cs ov (sentSplit current) chunks []).2
              ∉ (sentFold cs ov (sentSplit current) chunks []).1
        then (sentFold cs ov (sentSplit current) chunks []).1
              ++ [(sentFold cs ov (sentSplit current) chunks []).2]
        else (sentFold cs ov (sentSplit current) chunks []).1 := rfl

theorem sentenceBody_extend (cs ov : Nat) (current : List Char) (chunks : List (List Char)) :
    ∃ d, sentenceBody cs ov current chunks = chunks ++ d := by
  rw [sentenceBody_eq]
  split
  · refine ⟨(sentFold cs ov (sentSplit current) [] []).1
      ++ [(sentFold cs ov (sentSplit current) chunks []).2], ?_⟩
    rw [sentFold_append, ← List.append_assoc]
  · exact ⟨(sentFold cs ov (sentSplit current) [] []).1, by rw [sentFold_append]⟩

theorem sentenceBody_ne_nil {cs ov : Nat} {current : List Char} {chunks : List (List Char)}
    (hNS : HasNS current) : sentenceBody cs ov current chunks ≠ [] := by
  rw [sentenceBody_eq]
  obtain ⟨p, hp, hpNS⟩ := exists_hasNS_sentSplit hNS
  have hQ := sentFold_Q cs ov (sentSplit current) chunks []
    (Or.inl ⟨p, hp, strip_ne_nil_of_hasNS hpNS⟩)
  split
  case isTrue h => simp
  case isFalse h =>
    rcases hQ with h1 | h2
    · exact h1
    · have hmem : (sentFold cs ov (sentSplit current) chunks []).2
          ∈ (sentFold cs ov (sentSplit current) chunks []).1 := by
        by_contra hn
        exact h ⟨h2, hn⟩
      exact List.ne_nil_of_mem hmem

theorem sentenceBody_all_hasNS {cs ov : Nat} {current : List Char}
    {chunks : List (List Char)} (hcs : 1 ≤ cs) (hch : ∀ ch ∈ chunks, HasNS ch) :
    ∀ ch ∈ sentenceBody cs ov current chunks, HasNS ch := by
  rw [sentenceBody_eq]
  have hinv := sentFold_inv cs ov hcs (sentSplit current) chunks [] hch (Or.inl rfl)
  split
  case isTrue h =>
    intro ch hm
    rcases List.mem_append.mp hm with hm | hm
    · exact hinv.1 ch hm
    · rcases List.mem_singleton.mp hm with rfl
      rcases hinv.2 with he | ⟨c, hc, hcs'⟩
      · exact absurd he h.1
      · exact hasNS_of_getLast hc hcs'
  case isFalse => exact hinv.1

/-! ### `paraFold` lemmas -/

theorem hasNS_append_right {l t : List Char} (h : HasNS t) : HasNS (l ++ t) := by
  obtain ⟨c, hc, hcs⟩ := h
  exact ⟨c, List.mem_append.mpr (Or.inr hc), hcs⟩

theorem hasNS_append_left {l t : List Char} (h : HasNS l) : HasNS (l ++ t) := by
  obtain ⟨c, hc, hcs⟩ := h
  exact ⟨c, List.mem_append.mpr (Or.inl hc), hcs⟩

theorem paraFold_cons_skip {cs ov : Nat} {p : List Char} {rest chunks : List (List Char)}
    {current : List Char} (h : strip p = []) :
    paraFold cs ov (p :: rest) chunks current = paraFold cs ov rest chunks current := by
  simp [paraFold, h]

theorem paraFold_cons_pack {cs ov : Nat} {p : List Char} {rest chunks : List (List Char)}
    {current : List Char} (h1 : strip p ≠ [])
    (h2 : current.length + (strip p).length + 2 < cs) :
    paraFold cs ov (p :: rest) chunks current
      = paraFold cs ov rest chunks
          (current ++ (if current = [] then [] else ['\n', '\n']) ++ strip p) := by
  simp [paraFold, h1, h2]

theorem paraFold_cons_big {cs ov : Nat} {p : List Char} {rest chunks : List (List Char)}
    {current : List Char} (h1 : strip p ≠ [])
    (h2 : ¬ current.length + (strip p).length + 2 < cs) (h3 : cs < (strip p).length) :
    paraFold cs ov (p :: rest) chunks current
      = paraFold cs ov rest
          (sentenceBody cs ov (strip p)
            (if current ≠ [] then chunks ++ [current] else chunks)) [] := by
  simp [paraFold, h1, h2, h3]

theorem paraFold_cons_small {cs ov : Nat} {p : List Char} {rest chunks : List (List Char)}
    {current : List Char} (h1 : strip p ≠ [])
    (h2 : ¬ current.length + (strip p).length + 2 < cs) (h3 : ¬ cs < (strip p).length) :
    paraFold cs ov (p :: rest) chunks current
      = paraFold cs ov rest (if current ≠ [] then chunks ++ [current] else chunks)
          (strip p) := by
  simp [paraFold, h1, h2, h3]

theorem paraFold_extend {cs ov : Nat} :
    ∀ (ps : List (List Char)) (chunks : List (List Char)) (current : List Char),
      ∃ d, (paraFold cs ov ps chunks current).1 = chunks ++ d := by
  intro ps
  induction ps with
  | nil => intro chunks current; exact ⟨[], by simp [paraFold]⟩
  | cons p rest ih =>
    intro chunks current
    by_cases h1 : strip p = []
    · rw [paraFold_cons_skip h1]; exact ih chunks current
    · by_cases h2 : current.length + (strip p).length + 2 < cs
      · rw [paraFold_cons_pack h1 h2]; exact ih chunks _
      · have hc1 : ∃ d, (if current ≠ [] then chunks ++ [current] else chunks)
            = chunks ++ d := by
          split
          · exact ⟨[current], rfl⟩
          · exact ⟨[], by simp⟩
        obtain ⟨d1, hd1⟩ := hc1
        by_cases h3 : cs < (strip p).length
        · rw [paraFold_cons_big h1 h2 h3]
          obtain ⟨d2, hd2⟩ := sentenceBody_extend cs ov (strip p)
            (if current ≠ [] then chunks ++ [current] else chunks)
          obtain ⟨d3, hd3⟩ := ih (sentenceBody cs ov (strip p)
            (if current ≠ [] then chunks ++ [current] else chunks)) []
          exact ⟨d1 ++ d2 ++ d3, by
            rw [hd3, hd2, hd1]
            simp [List.append_assoc]⟩
        · rw [paraFold_cons_small h1 h2 h3]
          obtain ⟨d3, hd3⟩ := ih (if current ≠ [] then chunks ++ [current] else chunks)
            (strip p)
          exact ⟨d1 ++ d3, by rw [hd3, hd1]; simp [List.append_assoc]⟩

theorem paraFold_inv (cs ov : Nat) (hcs : 1 ≤ cs) :
    ∀ (ps : List (List Char)) (chunks : List (List Char)) (current : List Char),
      (∀ ch ∈ chunks, HasNS ch) → (current = [] ∨ HasNS current) →
      (∀ ch ∈ (paraFold cs ov ps chunks current).1, HasNS ch) ∧
        ((paraFold cs ov ps chunks current).2 = []
          ∨ HasNS (paraFold cs ov ps chunks current).2) := by
  intro ps
  induction ps with
  | nil => intro chunks current hch hcur; exact ⟨hch, hcur⟩
  | cons p rest ih =>
    intro chunks current hch hcur
    by_cases h1 : strip p = []
    · rw [paraFold_cons_skip h1]; exact ih chunks current hch hcur
    · have hpNS : HasNS (strip p) := hasNS_of_strip_ne h1
      by_cases h2 : current.length + (strip p).length + 2 < cs
      · rw [paraFold_cons_pack h1 h2]
        exact ih chunks _ hch (Or.inr (hasNS_append_right hpNS))
      · have hch1 : ∀ ch ∈ (if current ≠ [] then chunks ++ [current] else chunks),
            HasNS ch := by
          split
          case isTrue hne =>
            intro ch hm
            rcases List.mem_append.mp hm with hm | hm
            · exact hch ch hm
            · rcases List.mem_singleton.mp hm with rfl
              rcases hcur with rfl | h
              · exact absurd rfl hne
              · exact h
          case isFalse => exact hch
        by_cases h3 : cs < (strip p).length
        · rw [paraFold_cons_big h1 h2 h3]
          exact ih _ [] (sentenceBody_all_hasNS hcs hch1) (Or.inl rfl)
        · rw [paraFold_cons_small h1 h2 h3]
          exact ih _ (strip p) hch1 (Or.inr hpNS)

theorem paraFold_Q {cs ov : Nat} :
    ∀ (ps : List (List Char)) (chunks : List (List Char)) (current : List Char),
      (chunks ≠ [] ∨ current ≠ []) →
      (paraFold cs ov ps chunks current).1 ≠ [] ∨ (paraFold cs ov ps chunks current).2 ≠ [] := by
  intro ps
  induction ps with
  | nil => intro chunks current h; exact h
  | cons p rest ih =>
    intro chunks current h
    by_cases h1 : strip p = []
    · rw [paraFold_cons_skip h1]; exact ih chunks current h
    · by_cases h2 : current.length + (strip p).length + 2 < cs
      · rw [paraFold_cons_pack h1 h2]
        apply ih
        refine Or.inr (fun he => h1 (List.append_eq_nil.mp he).2)
      · have hch1 : (if current ≠ [] then chunks ++ [current] else chunks) ≠ [] := by
          split
          case isTrue => simp
          case isFalse hne =>
            rcases h with h | h
            · exact h
            · exact absurd h hne
        by_cases h3 : cs < (strip p).length
        · rw [paraFold_cons_big h1 h2 h3]
          apply ih
          left
          obtain ⟨d, hd⟩ := sentenceBody_extend cs ov (strip p)
            (if current ≠ [] then chunks ++ [current] else chunks)
          rw [hd]
          intro he
          exact hch1 (List.append_eq_nil.mp he).1
        · rw [paraFold_cons_small h1 h2 h3]
          exact ih _ (strip p) (Or.inr h1)

theorem paraFold_estab (cs ov : Nat) :
    ∀ (ps : List (List Char)) (chunks : List (List Char)) (current : List Char),
      (∃ p ∈ ps, strip p ≠ []) →
      (paraFold cs ov ps chunks current).1 ≠ [] ∨ (paraFold cs ov ps chunks current).2 ≠ [] := by
  intro ps
  induction ps with
  | nil => intro chunks current h; obtain ⟨p, hp, _⟩ := h; cases hp
  | cons p rest ih =>
    intro chunks current h
    by_cases h1 : strip p = []
    · rw [paraFold_cons_skip h1]
      obtain ⟨p', hp', hne⟩ := h
      rcases List.mem_cons.mp hp' with rfl | hm
      · exact absurd h1 hne
      · exact ih chunks current ⟨p', hm, hne⟩
    · by_cases h2 : current.length + (strip p).length + 2 < cs
      · rw [paraFold_cons_pack h1 h2]
        apply paraFold_Q
        refine Or.inr (fun he => h1 (List.append_eq_nil.mp he).2)
      · by_cases h3 : cs < (strip p).length
        · rw [paraFold_cons_big h1 h2 h3]
          apply paraFold_Q
          exact Or.inl (sentenceBody_ne_nil (hasNS_of_strip_ne h1))
        · rw [paraFold_cons_small h1 h2 h3]
          exact paraFold_Q _ _ _ (Or.inr h1)

theorem paraFold_skip_all {cs ov : Nat} :
    ∀ (ps : List (List Char)) (chunks : List (List Char)) (current : List Char),
      (∀ p ∈ ps, strip p = []) → paraFold cs ov ps chunks current = (chunks, current) := by
  intro ps
  induction ps with
  | nil => intro chunks current _; rfl
  | cons p rest ih =>
    intro chunks current h
    rw [paraFold_cons_skip (h p (List.mem_cons_self _ _))]
    exact ih chunks current (fun q hq => h q (List.mem_cons_of_mem _ hq))

/-! ### `whileLoop` unfolding -/

theorem whileLoop_eq {cs ov : Nat} (current : List Char) (chunks : List (List Char)) :
    whileLoop cs ov current chunks
      = if cs < current.length then (sentenceBody cs ov current chunks, ([] : List Char))
        else (chunks, current) := by
  rw [whileLoop]
  split
  case isTrue h =>
    rw [whileLoop]
    simp
  case isFalse h => rfl

/-! ### Merge-pass lemmas -/

theorem mergeFold_ne_nil {cs : Nat} :
    ∀ (ls done : List (List Char)) (last : List Char), mergeFold cs ls done last ≠ [] := by
  intro ls
  induction ls with
  | nil => intro done last; simp [mergeFold]
  | cons c rest ih =>
    intro done last
    rw [show mergeFold cs (c :: rest) done last
        = if (last.length + c.length + 2) * 5 ≤ cs * 6
          then mergeFold cs rest done (last ++ '\n' :: '\n' :: c)
          else mergeFold cs rest (done ++ [last]) c from rfl]
    split
    · exact ih done _
    · exact ih _ c

theorem mergeFold_mem {cs : Nat} :
    ∀ (ls done : List (List Char)) (last : List Char) (e : List Char),
      e ∈ mergeFold cs ls done last →
      e ∈ done ∨ e ∈ ls ∨ e = last ∨ e.length * 5 ≤ cs * 6 := by
  intro ls
  induction ls with
  | nil =>
    intro done last e he
    simp only [mergeFold] at he
    rcases List.mem_append.mp he with h | h
    · exact Or.inl h
    · exact Or.inr (Or.inr (Or.inl (List.mem_singleton.mp h)))
  | cons c rest ih =>
    intro done last e he
    rw [show mergeFold cs (c :: rest) done last
        = if (last.length + c.length + 2) * 5 ≤ cs * 6
          then mergeFold cs rest done (last ++ '\n' :: '\n' :: c)
          else mergeFold cs rest (done ++ [last]) c from rfl] at he
    by_cases hm : (last.length + c.length + 2) * 5 ≤ cs * 6
    · rw [if_pos hm] at he
      rcases ih done _ e he with h | h | h | h
      · exact Or.inl h
      · exact Or.inr (Or.inl (List.mem_cons_of_mem _ h))
      · refine Or.inr (Or.inr (Or.inr ?_))
        rw [h]
        simp only [List.length_append, List.length_cons]
        omega
      · exact Or.inr (Or.inr (Or.inr h))
    · rw [if_neg hm] at he
      rcases ih _ c e he with h | h | h | h
      · rcases List.mem_append.mp h with h' | h'
        · exact Or.inl h'
        · exact Or.inr (Or.inr (Or.inl (List.mem_singleton.mp h')))
      · exact Or.inr (Or.inl (List.mem_cons_of_mem _ h))
      · exact Or.inr (Or.inl (h ▸ List.mem_cons_self _ _))
      · exact Or.inr (Or.inr (Or.inr h))

theorem mergeFold_all {cs : Nat} {P : List Char → Prop}
    (hP : ∀ a b, P a → P (a ++ '\n' :: '\n' :: b)) :
    ∀ (ls done : List (List Char)) (last : List Char),
      (∀ d ∈ done, P d) → P last → (∀ c ∈ ls, P c) →
      ∀ e ∈ mergeFold cs ls done last, P e := by
  intro ls
  induction ls with
  | nil =>
    intro done last hdone hlast _ e he
    simp only [mergeFold] at he
    rcases List.mem_append.mp he with h | h
    · exact hdone e h
    · rw [List.mem_singleton.mp h]; exact hlast
  | cons c rest ih =>
    intro done last hdone hlast hls e he
    rw [show mergeFold cs (c :: rest) done last
        = if (last.length + c.length + 2) * 5 ≤ cs * 6
          then mergeFold cs rest done (last ++ '\n' :: '\n' :: c)
          else mergeFold cs rest (done ++ [last]) c from rfl] at he
    by_cases hm : (last.length + c.length + 2) * 5 ≤ cs * 6
    · rw [if_pos hm] at he
      exact ih done _ hdone (hP _ _ hlast) (fun d hd => hls d (List.mem_cons_of_mem _ hd)) e he
    · rw [if_neg hm] at he
      refine ih _ c ?_ (hls c (List.mem_cons_self _ _))
        (fun d hd => hls d (List.mem_cons_of_mem _ hd)) e he
      intro d hd
      rcases List.mem_append.mp hd with h | h
      · exact hdone d h
      · rw [List.mem_singleton.mp h]; exact hlast

theorem mergeFold_join_filter {cs : Nat} :
    ∀ (ls done : List (List Char)) (last : List Char),
      (mergeFold cs ls done last).flatten.filter (fun c => !isSpace c)
        = (done.flatten ++ last ++ ls.flatten).filter (fun c => !isSpace c) := by
  intro ls
  induction ls with
  | nil =>
    intro done last
    simp [mergeFold, List.flatten_append]
  | cons c rest ih =>
    intro done last
    rw [show mergeFold cs (c :: rest) done last
        = if (last.length + c.length + 2) * 5 ≤ cs * 6
          then mergeFold cs rest done (last ++ '\n' :: '\n' :: c)
          else mergeFold cs rest (done ++ [last]) c from rfl]
    have hnl : ('\n' :: '\n' :: c).filter (fun c => !isSpace c)
        = c.filter (fun c => !isSpace c) := by
      rw [show ('\n' :: '\n' :: c) = ['\n', '\n'] ++ c from rfl, List.filter_append]
      rfl
    split
    · rw [ih]
      simp only [List.flatten_cons, List.flatten_append, List.filter_append, hnl,
        List.append_assoc]
    · rw [ih]
      simp only [List.flatten_cons, List.flatten_append, List.filter_append,
        List.flatten_nil, List.append_nil, List.append_assoc]

theorem mergePhase_ne_nil {cs : Nat} {l : List (List Char)} (h : l ≠ []) :
    mergePhase cs l ≠ [] := by
  cases l with
  | nil => exact absurd rfl h
  | cons c rest => exact mergeFold_ne_nil rest [] c

theorem mergePhase_mem {cs : Nat} {l : List (List Char)} {e : List Char}
    (he : e ∈ mergePhase cs l) : e ∈ l ∨ e.length * 5 ≤ cs * 6 := by
  cases l with
  | nil => cases he
  | cons c rest =>
    rcases mergeFold_mem rest [] c e he with h | h | h | h
    · cases h
    · exact Or.inl (List.mem_cons_of_mem _ h)
    · exact Or.inl (h ▸ List.mem_cons_self _ _)
    · exact Or.inr h

theorem mergePhase_all {cs : Nat} {P : List Char → Prop}
    (hP : ∀ a b, P a → P (a ++ '\n' :: '\n' :: b))
    {l : List (List Char)} (hl : ∀ c ∈ l, P c) :
    ∀ e ∈ mergePhase cs l, P e := by
  cases l with
  | nil => intro e he; cases he
  | cons c rest =>
    exact mergeFold_all hP rest [] c (fun d hd => absurd hd (List.not_mem_nil _))
      (hl c (List.mem_cons_self _ _)) (fun d hd => hl d (List.mem_cons_of_mem _ hd))

theorem mergePhase_join_filter {cs : Nat} {l : List (List Char)} :
    (mergePhase cs l).flatten.filter (fun c => !isSpace c)
      = l.flatten.filter (fun c => !isSpace c) := by
  cases l with
  | nil => rfl
  | cons c rest =>
    rw [show mergePhase cs (c :: rest) = mergeFold cs rest [] c from rfl,
      mergeFold_join_filter]
    simp [List.flatten_cons]

/-! ### Final trim-and-filter lemmas -/

theorem final_ne_nil {l : List (List Char)} (h : ∀ e ∈ l, HasNS e) (hl : l ≠ []) :
    (l.map strip).filter (fun c => !c.isEmpty) ≠ [] := by
  cases l with
  | nil => exact absurd rfl hl
  | cons e t =>
    have he : strip e ≠ [] := strip_ne_nil_of_hasNS (h e (List.mem_cons_self _ _))
    rw [List.map_cons, List.filter_cons_of_pos (by simpa using he)]
    simp

theorem final_mem_ne_nil {l : List (List Char)} :
    ∀ c ∈ (l.map strip).filter (fun c => !c.isEmpty), c ≠ [] := by
  intro c hc
  have := (List.mem_filter.mp hc).2
  simpa using this

theorem final_join_filter :
    ∀ l : List (List Char),
      (((l.map strip).filter (fun c => !c.isEmpty)).flatten).filter (fun c => !isSpace c)
        = (l.flatten).filter (fun c => !isSpace c) := by
  intro l
  induction l with
  | nil => rfl
  | cons e t ih =>
    by_cases he : strip e = []
    · rw [List.map_cons, List.filter_cons_of_neg (by simp [he])]
      rw [ih, List.flatten_cons, List.filter_append]
      have : e.filter (fun c => !isSpace c) = [] := by
        rw [← strip_filter, he]
        rfl
      rw [this]
      rfl
    · rw [List.map_cons, List.filter_cons_of_pos (by simpa using he)]
      rw [List.flatten_cons, List.flatten_cons, List.filter_append, List.filter_append,
        strip_filter, ih]

/-! ### Trace of a whitespace-free oversized text -/

theorem preMergeChunks_eq {text : List Char} {cs ov : Nat} :
    preMergeChunks text cs ov
      = if text = [] then []
        else if (paraFold cs ov (paraSplit text) [] []).2 ≠ []
          then (paraFold cs ov (paraSplit text) [] []).1
                ++ [(paraFold cs ov (paraSplit text) [] []).2]
          else (paraFold cs ov (paraSplit text) [] []).1 := rfl

theorem clean_preMerge {text : List Char} (cs ov : Nat)
    (hsp : ∀ c ∈ text, isSpace c = false)
    (hov : ov ≤ cs) (hcs : 1 ≤ cs) (hbig : cs < text.length)
    (hneq : text.length - (cs - ov) ≠ cs) :
    preMergeChunks text cs ov = [text.take cs, text.drop (cs - ov)] := by
  have hst : strip text = text := strip_eq_self hsp
  have htne : text ≠ [] := by
    intro he
    rw [he] at hbig
    simp at hbig
  have hnl : ∀ c ∈ text, c ≠ '\n' := by
    intro c hc he
    have := hsp c hc
    rw [he] at this
    cases this
  have hps : paraSplit text = [text] := paraSplit_no_newline hnl
  have hss : sentSplit text = [text] := sentSplit_no_space hsp
  have hfold : sentFold cs ov [text] ([] : List (List Char)) []
      = ([text.take cs], text.drop (cs - ov)) := by
    rw [sentFold_cons_hard (by rw [hst]; exact htne)
      (by rw [hst]; simp; omega) rfl]
    rw [hst]
    simp [sentFold]
  have hdne : text.drop (cs - ov) ≠ [] := by
    intro he
    have := congrArg List.length he
    rw [List.length_drop] at this
    simp at this
    omega
  have hsb : sentenceBody cs ov text [] = [text.take cs, text.drop (cs - ov)] := by
    rw [sentenceBody_eq, hss, hfold]
    have hm : text.drop (cs - ov) ∉ [text.take cs] := by
      simp only [List.mem_singleton]
      intro he
      have := congrArg List.length he
      rw [List.length_drop, List.length_take] at this
      omega
    rw [if_pos ⟨hdne, hm⟩]
    rfl
  have hpf : paraFold cs ov [text] [] [] = ([text.take cs, text.drop (cs - ov)], []) := by
    rw [paraFold_cons_big (by rw [hst]; exact htne)
      (by rw [hst]; simp; omega) (by rw [hst]; exact hbig)]
    rw [hst]
    rw [if_neg (by simp)]
    rw [hsb]
    rfl
  rw [preMergeChunks_eq, if_neg htne, hps, hpf]
  simp

/-! ### Overlap-seeding invariants (sentence-tier boundaries) -/

theorem take_append_left2 {k : Nat} {a b c : List Char} (h : k ≤ a.length) :
    ((a ++ b) ++ c).take k = a.take k := by
  rw [List.take_append_of_le_length (by rw [List.length_append]; omega),
    List.take_append_of_le_length h]

theorem ne_nil_of_seedInv {ov : Nat} {a sub : List Char} (h1 : 1 ≤ ov)
    (h : SeedInv ov a sub) : sub ≠ [] := by
  intro he
  subst he
  have h3 := h.1
  have h2 : min ov a.length ≤ 0 := by simpa using h.2.1
  omega

theorem seedInv_append {ov : Nat} {a sub : List Char} (h : SeedInv ov a sub)
    (x y : List Char) : SeedInv ov a (sub ++ x ++ y) := by
  obtain ⟨ha, hle, htake⟩ := h
  refine ⟨ha, ?_, ?_⟩
  · rw [List.length_append, List.length_append]
    omega
  · rw [take_append_left2 hle, htake]

theorem seedInv_emit {ov : Nat} (h1 : 1 ≤ ov) {sub sent : List Char} (hsub : sub ≠ []) :
    SeedInv ov sub
      ((if ov ≤ sub.length then pyLastSlice ov sub else sub)
        ++ (if (if ov ≤ sub.length then pyLastSlice ov sub else sub) = []
            then [] else [' '])
        ++ sent) := by
  have hsl : 1 ≤ sub.length := List.length_pos.mpr hsub
  by_cases hov : ov ≤ sub.length
  · rw [if_pos hov]
    have hpl : pyLastSlice ov sub = sub.drop (sub.length - ov) := by
      unfold pyLastSlice
      rw [if_neg (by omega)]
    rw [hpl]
    have hlen : (sub.drop (sub.length - ov)).length = ov := by
      rw [List.length_drop]
      omega
    have hmin : min ov sub.length = ov := Nat.min_eq_left hov
    refine ⟨hsl, ?_, ?_⟩
    · rw [hmin, List.length_append, List.length_append]
      omega
    · rw [hmin, take_append_left2 (le_of_eq hlen.symm),
        List.take_of_length_le (le_of_eq hlen)]
      rfl
  · rw [if_neg hov]
    have hmin : min ov sub.length = sub.length := Nat.min_eq_right (by omega)
    refine ⟨hsl, ?_, ?_⟩
    · rw [hmin, List.length_append, List.length_append]
      omega
    · rw [hmin, take_append_left2 (Nat.le_refl _), List.take_length]
      unfold overlapTail
      rw [Nat.sub_self, List.drop_zero]

theorem seedInv_hard {cs ov : Nat} (h1 : 1 ≤ ov) (h2 : ov < cs) {sent : List Char}
    (hlen : cs ≤ sent.length) : SeedInv ov (sent.take cs) (sent.drop (cs - ov)) := by
  have hltake : (sent.take cs).length = cs := by
    rw [List.length_take]
    omega
  have hmin : min ov (sent.take cs).length = ov := by
    rw [hltake]
    exact Nat.min_eq_left (by omega)
  refine ⟨by omega, ?_, ?_⟩
  · rw [hmin, List.length_drop]
    omega
  · have hco : cs - ov + ov = cs := Nat.sub_add_cancel (Nat.le_of_lt h2)
    rw [hmin, List.take_drop, hco]
    unfold overlapTail
    rw [hltake]

theorem sentFold_chain {cs ov : Nat} (hov1 : 1 ≤ ov) (hovcs : ov < cs) :
    ∀ (ss : List (List Char)) (sub : List Char) (pend : Option (List Char)),
      (∀ s ∈ ss, (strip s).length ≠ cs - 1) →
      (∀ a, pend = some a → SeedInv ov a sub) →
      List.Chain' (Follows ov)
        (pend.toList ++ (sentFold cs ov ss [] sub).1
          ++ (if (sentFold cs ov ss [] sub).2 = [] then []
              else [(sentFold cs ov ss [] sub).2])) := by
  intro ss
  induction ss with
  | nil =>
    intro sub pend hs hp
    simp only [sentFold]
    cases pend with
    | none =>
      split
      · simp
      · simp [Option.toList, List.chain'_singleton]
    | some a =>
      have hinv := hp a rfl
      have hne : sub ≠ [] := ne_nil_of_seedInv hov1 hinv
      rw [if_neg hne]
      simpa [Option.toList] using List.chain'_pair.mpr hinv.2.2
  | cons s rest ih =>
    intro sub pend hs hp
    have hstail : ∀ s' ∈ rest, (strip s').length ≠ cs - 1 :=
      fun s' h' => hs s' (List.mem_cons_of_mem _ h')
    by_cases hsk : strip s = []
    · rw [sentFold_cons_skip hsk]
      exact ih sub pend hstail hp
    · by_cases hpk : sub.length + (strip s).length + 1 < cs
      · rw [sentFold_cons_pack hsk hpk]
        refine ih _ pend hstail ?_
        intro a ha
        exact seedInv_append (hp a ha) _ _
      · by_cases hemit : sub ≠ []
        · rw [sentFold_cons_emit hsk hpk hemit, sentFold_append]
          have hIH := ih ((if ov ≤ sub.length then pyLastSlice ov sub else sub)
              ++ (if (if ov ≤ sub.length then pyLastSlice ov sub else sub) = []
                  then [] else [' '])
              ++ strip s) (some sub) hstail
            (fun a ha => by cases ha; exact seedInv_emit hov1 hemit)
          cases pend with
          | none =>
            simp only [Option.toList, List.nil_append, List.append_assoc,
              List.singleton_append] at hIH ⊢
            exact hIH
          | some a =>
            have hfa : Follows ov a sub := (hp a rfl).2.2
            simp only [Option.toList, List.nil_append, List.append_assoc,
              List.singleton_append] at hIH ⊢
            exact List.chain'_cons.mpr ⟨hfa, hIH⟩
        · have hsubnil : sub = [] := not_ne_iff.mp hemit
          cases pend with
          | some a =>
            exact absurd hsubnil (ne_nil_of_seedInv hov1 (hp a rfl))
          | none =>
            subst hsubnil
            rw [sentFold_cons_hard hsk hpk rfl, sentFold_append]
            have hlen : cs ≤ (strip s).length := by
              have hne := hs s (List.mem_cons_self _ _)
              simp only [List.length_nil, Nat.zero_add] at hpk
              omega
            have hIH := ih ((strip s).drop (cs - ov)) (some ((strip s).take cs)) hstail
              (fun a ha => by cases ha; exact seedInv_hard hov1 hovcs hlen)
            simp only [Option.toList, List.nil_append, List.append_assoc,
              List.singleton_append] at hIH ⊢
            exact hIH

/-! ### Merge of a two-element list that exceeds the slack bound -/

theorem mergePhase_two_no {cs : Nat} {a b : List Char}
    (h : ¬ (a.length + b.length + 2) * 5 ≤ cs * 6) :
    mergePhase cs [a, b] = [a, b] := by
  show mergeFold cs [b] [] a = [a, b]
  rw [show mergeFold cs [b] [] a
      = if (a.length + b.length + 2) * 5 ≤ cs * 6
        then mergeFold cs [] [] (a ++ '\n' :: '\n' :: b)
        else mergeFold cs [] ([] ++ [a]) b from rfl, if_neg h]
  simp [mergeFold]

theorem final_pair {a b : List Char} (ha : strip a = a) (hb : strip b = b)
    (hna : a ≠ []) (hnb : b ≠ []) :
    ([a, b].map strip).filter (fun c => !c.isEmpty) = [a, b] := by
  rw [List.map_cons, List.map_cons, List.map_nil, ha, hb,
    List.filter_cons_of_pos (by simpa using hna),
    List.filter_cons_of_pos (by simpa using hnb)]
  rfl

/-! ## Claim theorems -/

/-- Claim C2 (amended): `get_chunks` performs no validation of
`chunk_size`/`chunk_overlap`.  On the invalid configuration
`chunk_overlap = chunk_size`, instead of raising a configuration error
it chunks the text: for whitespace-free text longer than `chunk_size`
it returns the hard slice followed by the whole text (the overlap seed
`sent[chunk_size - chunk_overlap:]` degenerates to the entire
sentence), clamping nothing. -/
theorem c2_no_validation (text : List Char) (cs : Nat)
    (hsp : ∀ c ∈ text, isSpace c = false)
    (hcs : 1 ≤ cs) (hbig : cs < text.length) :
    get_chunks text cs cs = [text.take cs, text] := by
  have hlt : (text.take cs).length = cs := by
    rw [List.length_take]
    omega
  have hpm : preMergeChunks text cs cs = [text.take cs, text] := by
    have h := clean_preMerge cs cs hsp (Nat.le_refl cs) hcs hbig (by omega)
    rw [Nat.sub_self, List.drop_zero] at h
    exact h
  have htne : text ≠ [] := by
    intro he
    rw [he] at hbig
    simp at hbig
  unfold get_chunks
  rw [hpm, mergePhase_two_no (by rw [hlt]; omega)]
  exact final_pair (strip_eq_self (fun c hc => hsp c (List.take_subset _ _ hc)))
    (strip_eq_self hsp) (List.length_pos.mp (by omega)) htne

/-- Claim C2 (counterexample to the claim as stated): the configuration
`chunk_size = chunk_overlap = 5` is invalid (`overlap ≥ size`), yet
`get_chunks` does not fail fast: it fully processes the text and
returns chunks. -/
theorem c2_cex :
    ¬ (5 < 5)
      ∧ get_chunks (List.replicate 8 'a') 5 5
          = [List.replicate 5 'a', List.replicate 8 'a']
      ∧ get_chunks (List.replicate 8 'a') 5 5 ≠ [] := by
  refine ⟨by omega, by decide, by decide⟩

/-- Claim C2: witness for `c2_no_validation` at a concrete input. -/
theorem c2_no_validation_witness :
    get_chunks (List.replicate 8 'a') 5 5
      = [(List.replicate 8 'a').take 5, List.replicate 8 'a'] :=
  c2_no_validation _ 5 (fun c hc => by rw [List.eq_of_mem_replicate hc]; decide)
    (by decide) (by simp)

/-- Claim C3: for a 2000-character input that is a single paragraph and a
single sentence with no terminal punctuation (no whitespace and no
`.`/`!`/`?` characters), with `chunk_size = 750` and
`chunk_overlap = 150`, `get_chunks` returns `[text[:750], text[600:]]`:
every chunk except the last has length exactly 750, and the chunk after
the first begins with the 150 characters that end the previous chunk. -/
theorem c3_hard_slice_scenario (text : List Char)
    (hlen : text.length = 2000)
    (hsp : ∀ c ∈ text, isSpace c = false)
    (hpn : ∀ c ∈ text, isSentEnd c = false) :
    get_chunks text 750 150 = [text.take 750, text.drop 600]
      ∧ (text.take 750).length = 750
      ∧ (text.drop 600).take 150 = overlapTail 150 (text.take 750) := by
  have h1 : (text.take 750).length = 750 := by
    rw [List.length_take]
    omega
  have h2 : (text.drop 600).length = 1400 := by
    rw [List.length_drop]
    omega
  have hpm : preMergeChunks text 750 150 = [text.take 750, text.drop 600] := by
    have h := clean_preMerge 750 150 hsp (by omega) (by omega)
      (by omega) (by omega)
    norm_num at h
    exact h
  refine ⟨?_, h1, ?_⟩
  · unfold get_chunks
    rw [hpm, mergePhase_two_no (by rw [h1, h2]; omega)]
    exact final_pair (strip_eq_self (fun c hc => hsp c (List.take_subset _ _ hc)))
      (strip_eq_self (fun c hc => hsp c (List.drop_subset _ _ hc)))
      (List.length_pos.mp (by omega)) (List.length_pos.mp (by omega))
  · rw [List.take_drop]
    unfold overlapTail
    rw [h1]

set_option maxRecDepth 8192 in
/-- Claim C3: witness at the concrete 2000-character input `'a' * 2000`. -/
theorem c3_hard_slice_scenario_witness :
    get_chunks (List.replicate 2000 'a') 750 150
        = [(List.replicate 2000 'a').take 750, (List.replicate 2000 'a').drop 600]
      ∧ ((List.replicate 2000 'a').take 750).length = 750
      ∧ ((List.replicate 2000 'a').drop 600).take 150
          = overlapTail 150 ((List.replicate 2000 'a').take 750) :=
  c3_hard_slice_scenario _ (by rw [List.length_replicate])
    (fun c hc => by rw [List.eq_of_mem_replicate hc]; decide)
    (fun c hc => by rw [List.eq_of_mem_replicate hc]; decide)

/-- Claim C1 (amended): the merge pass only ever joins two chunks when
the combined length stays within `chunk_size * 1.2`, so every chunk
returned by `get_chunks` is either the trimmed copy of a single
pre-merge chunk (which may exceed the bound, e.g. the sentence-tier
leftover after a hard slice) or has length at most `chunk_size * 1.2`
(stated exactly as `length * 5 ≤ chunk_size * 6`). -/
theorem c1_size_bound_amended (text : List Char) (cs ov : Nat) (c : List Char)
    (hc : c ∈ get_chunks text cs ov) :
    (∃ e ∈ preMergeChunks text cs ov, c = strip e) ∨ c.length * 5 ≤ cs * 6 := by
  unfold get_chunks at hc
  obtain ⟨hmem, _⟩ := List.mem_filter.mp hc
  obtain ⟨e, he, rfl⟩ := List.mem_map.mp hmem
  rcases mergePhase_mem he with h | h
  · exact Or.inl ⟨e, h, rfl⟩
  · right
    have hle : (strip e).length ≤ e.length := strip_length_le
    omega

/-- Claim C1 (counterexample to the claim as stated): with the valid
configuration `chunk_size = 5`, `chunk_overlap = 3`, the input
`'a' * 12` produces a returned chunk of length 10, which exceeds
`chunk_size * 1.2 = 6`; it is the sentence-tier leftover seeded after
the hard slice, which is neither strictly shorter than `chunk_size` nor
exactly `chunk_size` long. -/
theorem c1_size_bound_cex :
    0 < 3 ∧ 3 < 5
      ∧ List.replicate 10 'a' ∈ get_chunks (List.replicate 12 'a') 5 3
      ∧ ¬ (List.replicate 10 'a').length * 5 ≤ 5 * 6 := by
  refine ⟨by omega, by omega, by decide, by decide⟩

/-- Claim C1: witness for `c1_size_bound_amended` at a concrete input. -/
theorem c1_size_bound_witness :
    (∃ e ∈ preMergeChunks (List.replicate 12 'a') 5 3,
        List.replicate 10 'a' = strip e)
      ∨ (List.replicate 10 'a').length * 5 ≤ 5 * 6 :=
  c1_size_bound_amended _ 5 3 _ (by decide)

/-- Claim C4 (amended): for every text containing at least one
non-whitespace character and every valid configuration, `get_chunks`
returns a non-empty list all of whose elements are non-empty.
(Termination holds by construction: the embedding is a total function.) -/
theorem c4_total_amended (text : List Char) (cs ov : Nat)
    (h : HasNS text) (h1 : 0 < ov) (h2 : ov < cs) :
    get_chunks text cs ov ≠ [] ∧ ∀ c ∈ get_chunks text cs ov, c ≠ [] := by
  have hcs : 1 ≤ cs := by omega
  have htne : text ≠ [] := by
    obtain ⟨c, hc, _⟩ := h
    exact List.ne_nil_of_mem hc
  obtain ⟨p, hp, hpNS⟩ := exists_hasNS_paraSplit h
  have hQ := paraFold_estab cs ov (paraSplit text) [] []
    ⟨p, hp, strip_ne_nil_of_hasNS hpNS⟩
  have hinv := paraFold_inv cs ov hcs (paraSplit text) [] []
    (fun ch hm => absurd hm (List.not_mem_nil _)) (Or.inl rfl)
  have hpm_ne : preMergeChunks text cs ov ≠ [] := by
    rw [preMergeChunks_eq, if_neg htne]
    split
    · simp
    case isFalse hr =>
      rcases hQ with h' | h'
      · exact h'
      · exact absurd h' (by simpa using hr)
  have hpm_all : ∀ ch ∈ preMergeChunks text cs ov, HasNS ch := by
    rw [preMergeChunks_eq, if_neg htne]
    split
    case isTrue hr =>
      intro ch hm
      rcases List.mem_append.mp hm with hm | hm
      · exact hinv.1 ch hm
      · rcases List.mem_singleton.mp hm with rfl
        rcases hinv.2 with he | hNS
        · exact absurd he hr
        · exact hNS
    case isFalse => exact hinv.1
  have hm_all : ∀ e ∈ mergePhase cs (preMergeChunks text cs ov), HasNS e :=
    mergePhase_all (fun a b ha => hasNS_append_left ha) hpm_all
  constructor
  · unfold get_chunks
    exact final_ne_nil hm_all (mergePhase_ne_nil hpm_ne)
  · unfold get_chunks
    exact final_mem_ne_nil

/-- Claim C4 (counterexample to the claim as stated): the whitespace-only
input `" "` is a non-empty string, the configuration is valid, and yet
`get_chunks` returns the empty list. -/
theorem c4_total_cex :
    ([' '] : List Char) ≠ [] ∧ 0 < 150 ∧ 150 < 750
      ∧ get_chunks [' '] 750 150 = [] := by
  refine ⟨by decide, by omega, by omega, by decide⟩

/-- Claim C4: witness for `c4_total_amended` at a concrete input. -/
theorem c4_total_witness :
    get_chunks ['h', 'i'] 750 150 ≠ []
      ∧ ∀ c ∈ get_chunks ['h', 'i'] 750 150, c ≠ [] :=
  c4_total_amended _ 750 150 ⟨'h', by decide, by decide⟩ (by omega) (by omega)

/-- Claim C5 (amended): the merge pass and the final trim lose no
non-whitespace content and preserve its order — the sequence of
non-whitespace characters of the final output equals that of the
pre-merge chunk list.  (Input-to-output completeness as originally
claimed fails: the dedup check of line 69 can silently drop a
paragraph's trailing sub-buffer; see the counterexample.) -/
theorem c5_order_amended (text : List Char) (cs ov : Nat) :
    ((get_chunks text cs ov).flatten).filter (fun c => !isSpace c)
      = ((preMergeChunks text cs ov).flatten).filter (fun c => !isSpace c) := by
  unfold get_chunks
  rw [final_join_filter, mergePhase_join_filter]

/-- Claim C5 (counterexample to the claim as stated): for the input
`'a' * 12 ++ "\n\n" ++ 'a' * 12` with `chunk_size = 5`,
`chunk_overlap = 3`, the returned chunks contain strictly fewer
non-whitespace characters than the input — the second paragraph's
trailing sub-buffer is silently dropped because it equals an earlier
chunk, so content is lost. -/
theorem c5_order_cex :
    (((get_chunks (List.replicate 12 'a' ++ '\n' :: '\n' :: List.replicate 12 'a') 5 3).flatten).filter
        (fun c => !isSpace c)).length
      < ((List.replicate 12 'a' ++ '\n' :: '\n' :: List.replicate 12 'a').filter
          (fun c => !isSpace c)).length := by
  decide

/-- Claim C6 (amended): every chunk boundary introduced within one run
of the sentence tier (including hard slices) satisfies the overlap
property — the later chunk starts with the tail of the earlier chunk of
length `min(chunk_overlap, length of earlier chunk)` — provided no
stripped sentence has length exactly `chunk_size - 1`.  (A sentence of
length exactly `chunk_size - 1` is hard-sliced whole and seeds only its
last `chunk_overlap - 1` characters; see the counterexample.) -/
theorem c6_overlap_amended (cs ov : Nat) (current : List Char)
    (chunks : List (List Char)) (h1 : 1 ≤ ov) (h2 : ov < cs)
    (hs : ∀ s ∈ sentSplit current, (strip s).length ≠ cs - 1) :
    List.Chain' (Follows ov) ((sentenceBody cs ov current chunks).drop chunks.length) := by
  rw [sentenceBody_eq, sentFold_append]
  have hch := sentFold_chain h1 h2 (sentSplit current) [] none hs
    (fun a ha => by cases ha)
  simp only [Option.toList, List.nil_append] at hch
  split
  case isTrue h =>
    rw [List.append_assoc, List.drop_left]
    rcases h with ⟨hne, _⟩
    rw [if_neg hne] at hch
    exact hch
  case isFalse h =>
    rw [List.drop_left]
    exact (List.chain'_append.mp hch).1

/-- Claim C6 (counterexample to the claim as stated): in
`"abc. efghij"` with `chunk_size = 5`, `chunk_overlap = 3`, the
sentence `"abc."` (length `chunk_size - 1 = 4`) is hard-sliced whole;
the following chunk `"c."` carries only the last 2 characters of it,
not `min(3, 4) = 3` characters as claimed. -/
theorem c6_overlap_cex :
    preMergeChunks ('a' :: 'b' :: 'c' :: '.' :: ' ' :: 'e' :: 'f' :: 'g' :: 'h' :: 'i' :: 'j' :: []) 5 3
        = [['a', 'b', 'c', '.'], ['c', '.'],
            ['c', '.', ' ', 'e', 'f', 'g', 'h', 'i', 'j']]
      ∧ ¬ Follows 3 ['a', 'b', 'c', '.'] ['c', '.'] := by
  refine ⟨by decide, ?_⟩
  simp only [Follows, overlapTail]
  decide

/-- Claim C6: witness for `c6_overlap_amended` at a concrete input. -/
theorem c6_overlap_witness :
    List.Chain' (Follows 3)
      ((sentenceBody 5 3 ('a' :: 'b' :: 'c' :: 'd' :: 'e' :: '.' :: ' ' :: 'f' :: 'g' :: [])
          []).drop ([] : List (List Char)).length) :=
  c6_overlap_amended 5 3 _ [] (by omega) (by omega) (by decide)

/-- Claim C7: the sentence-splitting `while` loop always makes forward
progress — its body unconditionally resets `current_chunk` to the empty
string, so the loop as written equals a single conditional body
execution, and `get_chunks` (a total function in this embedding, with
no raise statement anywhere in the source) terminates on every input.
The hard-slice fallback advances likewise, being a structural fold. -/
theorem c7_while_progress (cs ov : Nat) (current : List Char)
    (chunks : List (List Char)) :
    whileLoop cs ov current chunks
      = if cs < current.length
        then (sentenceBody cs ov current chunks, ([] : List Char))
        else (chunks, current) :=
  whileLoop_eq current chunks

/-- Claim C8: `get_chunks` is deterministic — its result depends only on
its three arguments (the embedding is a pure function of them; the
source reads no globals: every name in the function body is a
parameter, a local, or the pure `re`/`str` library). -/
theorem c8_deterministic (t1 t2 : List Char) (cs1 cs2 ov1 ov2 : Nat)
    (ht : t1 = t2) (hcs : cs1 = cs2) (hov : ov1 = ov2) :
    get_chunks t1 cs1 ov1 = get_chunks t2 cs2 ov2 := by
  rw [ht, hcs, hov]

/-- Claim C8: witness for `c8_deterministic` at a concrete input. -/
theorem c8_deterministic_witness :
    get_chunks ['a'] 5 3 = get_chunks ['a'] 5 3 :=
  c8_deterministic _ _ _ _ _ _ rfl rfl rfl

/-- Claim C9: `get_chunks` returns the empty list on the empty input and
on any whitespace-only input, for every valid configuration. -/
theorem c9_whitespace_empty (text : List Char) (cs ov : Nat)
    (h : ∀ c ∈ text, isSpace c = true) (h1 : 0 < ov) (h2 : ov < cs) :
    get_chunks text cs ov = [] := by
  by_cases htne : text = []
  · subst htne
    rfl
  · have hall : ∀ p ∈ paraSplit text, strip p = [] := fun p hp =>
      strip_eq_nil_of_all (fun c hc => h c (paraSplit_subset p hp c hc))
    unfold get_chunks
    rw [preMergeChunks_eq, if_neg htne, paraFold_skip_all _ _ _ hall]
    rfl

/-- Claim C9: witness for `c9_whitespace_empty` at concrete inputs. -/
theorem c9_whitespace_empty_witness :
    get_chunks [' ', '\n', '\t'] 750 150 = [] :=
  c9_whitespace_empty _ 750 150 (by decide) (by omega) (by omega)

/-- Claim C10: if, after the sentence tier finishes a paragraph, the
leftover sub-buffer is string-equal to any chunk already in the chunk
list, the leftover is silently discarded — the body of the while loop
returns the chunk list without appending it (so, for inputs with
repeated identical content, a paragraph's trailing fragment is absent
from the output; the witness instantiates exactly that situation). -/
theorem c10_dedup_discard (cs ov : Nat) (current : List Char)
    (chunks : List (List Char))
    (h : (sentFold cs ov (sentSplit current) chunks []).2
          ∈ (sentFold cs ov (sentSplit current) chunks []).1) :
    sentenceBody cs ov current chunks
      = (sentFold cs ov (sentSplit current) chunks []).1 := by
  rw [sentenceBody_eq, if_neg]
  intro hcon
  exact hcon.2 h

/-- Claim C10: witness — the second `'a' * 12` paragraph's leftover
`'a' * 10` equals an earlier chunk and is dropped. -/
theorem c10_dedup_discard_witness :
    sentenceBody 5 3 (List.replicate 12 'a')
        [List.replicate 5 'a', List.replicate 10 'a']
      = (sentFold 5 3 (sentSplit (List.replicate 12 'a'))
          [List.replicate 5 'a', List.replicate 10 'a'] []).1 :=
  c10_dedup_discard 5 3 _ _ (by decide)
